import Mathlib

/-!
Verification development for a generic Monte Carlo Tree Search engine
(`src/src/lib.rs`).  The Rust tree of `Rc<RefCell<Node>>` with parent
back-references is embedded as an arena: nodes live in a list, parent and
children links are indices into that list (the arena layout the design notes
themselves recommend).  Rust `f32` values are modelled by the type `Mcts.F`
below; panics and potential non-termination are modelled with `Option` and
explicit fuel.
-/

namespace Mcts

/-- An exact (unreduced) fraction `num / den`; every fraction built by this
development has a positive denominator.  Using an explicit pair rather than
a normalized rational keeps every arithmetic operation a plain computation. -/
structure Frac where
  num : Int
  den : Nat
deriving DecidableEq, Repr

/-- The rational value a fraction denotes. -/
def Frac.val (a : Frac) : ℚ := (a.num : ℚ) / (a.den : ℚ)

/-- Exact fraction addition (no reduction). -/
def Frac.add (a b : Frac) : Frac := ⟨a.num * b.den + b.num * a.den, a.den * b.den⟩

/-- Exact fraction multiplication (no reduction). -/
def Frac.mul (a b : Frac) : Frac := ⟨a.num * b.num, a.den * b.den⟩

/-- Exact fraction division, keeping the denominator non-negative; callers
guard against a zero divisor. -/
def Frac.div (a b : Frac) : Frac :=
  if 0 ≤ b.num then ⟨a.num * b.den, a.den * b.num.toNat⟩
  else ⟨-(a.num * b.den), a.den * (-b.num).toNat⟩

/-- Semantic model of the Rust `f32` values this program manipulates:
either a special value (`nan`, `inf`, `neginf`) or an exact finite value.
The model is exact: finite arithmetic carries no rounding, so it agrees
with IEEE `f32` on every operation whose `f32` result is exact (all
concrete evaluations in this file only use such operations).  Negative zero
is not modelled; no evaluation in this file produces it. -/
inductive F where
  | nan : F
  | inf : F
  | neginf : F
  | fin : Frac → F
deriving DecidableEq, Repr

/-- IEEE addition on the model: `nan` propagates, `inf + neginf = nan`,
finite addition is exact. -/
def fadd : F → F → F
  | F.nan, _ => F.nan
  | _, F.nan => F.nan
  | F.inf, F.neginf => F.nan
  | F.neginf, F.inf => F.nan
  | F.inf, _ => F.inf
  | _, F.inf => F.inf
  | F.neginf, _ => F.neginf
  | _, F.neginf => F.neginf
  | F.fin a, F.fin b => F.fin (a.add b)

/-- IEEE multiplication on the model: `nan` propagates, `±inf * 0 = nan`,
finite multiplication is exact. -/
def fmul : F → F → F
  | F.nan, _ => F.nan
  | _, F.nan => F.nan
  | F.inf, F.inf => F.inf
  | F.inf, F.neginf => F.neginf
  | F.neginf, F.inf => F.neginf
  | F.neginf, F.neginf => F.inf
  | F.inf, F.fin b => if 0 < b.num then F.inf else if b.num < 0 then F.neginf else F.nan
  | F.fin a, F.inf => if 0 < a.num then F.inf else if a.num < 0 then F.neginf else F.nan
  | F.neginf, F.fin b => if 0 < b.num then F.neginf else if b.num < 0 then F.inf else F.nan
  | F.fin a, F.neginf => if 0 < a.num then F.neginf else if a.num < 0 then F.inf else F.nan
  | F.fin a, F.fin b => F.fin (a.mul b)

/-- IEEE division on the model: `nan` propagates, `inf/inf = nan`,
`0/0 = nan`, a nonzero finite value divided by (positive) zero is a signed
infinity, finite division is exact. -/
def fdiv : F → F → F
  | F.nan, _ => F.nan
  | _, F.nan => F.nan
  | F.inf, F.inf => F.nan
  | F.inf, F.neginf => F.nan
  | F.neginf, F.inf => F.nan
  | F.neginf, F.neginf => F.nan
  | F.inf, F.fin b => if b.num < 0 then F.neginf else F.inf
  | F.neginf, F.fin b => if b.num < 0 then F.inf else F.neginf
  | F.fin _, F.inf => F.fin ⟨0, 1⟩
  | F.fin _, F.neginf => F.fin ⟨0, 1⟩
  | F.fin a, F.fin b =>
    if b.num = 0 then (if a.num = 0 then F.nan else if 0 < a.num then F.inf else F.neginf)
    else F.fin (a.div b)

/-- Truncation of a fraction toward zero (the rounding used by Rust float to
integer `as` casts): T-division of the numerator by the denominator. -/
def ratTrunc (q : Frac) : Int := Int.tdiv q.num q.den

/-- Rust `as i32` applied to an `f32` (a saturating cast since Rust 1.45):
`NaN` becomes `0`, infinities clamp to the extreme `i32` values, finite
values are truncated toward zero and clamped. -/
def toI32 : F → Int
  | F.nan => 0
  | F.inf => 2147483647
  | F.neginf => -2147483648
  | F.fin q => max (-2147483648) (min 2147483647 (ratTrunc q))

/-- Rust `u32 as f32` cast.  Exact for arguments below `2^24`; every visit
count evaluated concretely in this file is tiny, where the cast is exact. -/
def u32f (n : Nat) : F := F.fin ⟨n, 1⟩

/-- The transcendental `f32` operations `ln` and `sqrt` used by the UCB1
formula, abstracted as parameters: theorems about the engine hold for every
choice, and concrete evaluations use the partial exact model
`fmathExact` below. -/
structure FMath where
  flog : F → F
  fsqrt : F → F

/-- Partial exact model of `f32::ln` and `f32::sqrt`.  It agrees with IEEE
behaviour wherever the true `f32` result is exact: `ln NaN = NaN`,
`ln (-x) = NaN`, `ln 0 = -inf`, `ln 1 = 0`, `sqrt NaN = NaN`,
`sqrt (-inf) = NaN`, `sqrt` of a negative is `NaN`, and `sqrt` of a rational
square is exact.  Outside that domain it returns `F.nan`; no concrete
evaluation in this file reaches those fallback branches. -/
def fmathExact : FMath where
  flog := fun x =>
    match x with
    | F.nan => F.nan
    | F.inf => F.inf
    | F.neginf => F.nan
    | F.fin q =>
      if q.num < 0 then F.nan
      else if q.num = 0 then F.neginf
      else if q.num = (q.den : Int) then F.fin ⟨0, 1⟩
      else F.nan
  fsqrt := fun x =>
    match x with
    | F.nan => F.nan
    | F.inf => F.inf
    | F.neginf => F.nan
    | F.fin q =>
      if q.num < 0 then F.nan
      else if (Nat.sqrt q.num.toNat) ^ 2 = q.num.toNat ∧ (Nat.sqrt q.den) ^ 2 = q.den
      then F.fin ⟨(Nat.sqrt q.num.toNat : Int), Nat.sqrt q.den⟩
      else F.nan

/-- The `GameState` trait: legal actions, transition function, terminal
check returning an optional reward. -/
structure GameState (S A : Type) where
  get_actions : S → List A
  get_next_state : S → A → S
  is_terminal : S → Option F

/-- The `NodeStats` struct: visit counter and accumulated value. -/
structure NodeStats where
  visits : Nat
  value : F
deriving DecidableEq, Repr

/-- The `Node` struct.  `parent` and `children` are arena indices instead of
`Rc` links. -/
structure Node (S A : Type) where
  parent : Option Nat
  children : List Nat
  stats : NodeStats
  state : S
  action : Option A
deriving DecidableEq, Repr

/-- The `Tree` struct as an arena of nodes; the root is index `0`. -/
structure Tree (S A : Type) where
  nodes : List (Node S A)
deriving DecidableEq, Repr

variable {S A : Type}

/-- Dereference an arena index (a `Link` in the Rust code). -/
def Tree.node (t : Tree S A) (i : Nat) : Option (Node S A) := t.nodes[i]?

/-- `Node::new`: fresh node with no parent, no children, zero stats. -/
def Node.mk0 (state : S) (action : Option A) : Node S A :=
  { parent := none, children := [], stats := { visits := 0, value := F.fin ⟨0, 1⟩ },
    state := state, action := action }

/-- `Tree::new`: a tree holding only the root node, built from the initial
state with no action. -/
def Tree.new (state : S) : Tree S A := { nodes := [Node.mk0 state none] }

/-- Apply a function to the node at index `i` (a `borrow_mut` on that node);
out-of-range indices (impossible through `Rc` references in the source)
leave the tree unchanged. -/
def Tree.updAt (t : Tree S A) (i : Nat) (f : Node S A → Node S A) : Tree S A :=
  match t.nodes[i]? with
  | none => t
  | some n => { nodes := t.nodes.set i (f n) }

/-- `Tree::add_child`: create a new node with the given state and action,
set its parent to `i`, and append its index (the arena size before the
append) to `i`'s children. -/
def Tree.add_child (t : Tree S A) (i : Nat) (state : S) (action : A) : Tree S A :=
  (Tree.mk (t.nodes ++ [{ Node.mk0 state (some action) with parent := some i }])).updAt i
    (fun n => { n with children := n.children ++ [t.nodes.length] })

/-- The parent index of node `i` (reading `node.borrow().parent`). -/
def parentOf (t : Tree S A) (i : Nat) : Option Nat := (t.node i).bind (fun n => n.parent)

/-- `MCTS::ucb1`: `value / visits + sqrt(2 * ln(parent.visits) / visits)`,
computed in `f32`; `none` models the `unwrap` panic when the node has no
parent (never reached on children of a tree node). -/
def ucb1 (m : FMath) (t : Tree S A) (i : Nat) : Option F := do
  let n ← t.node i
  let p ← n.parent
  let pn ← t.node p
  some (fadd (fdiv n.stats.value (u32f n.stats.visits))
    (m.fsqrt (fdiv (fmul (F.fin ⟨2, 1⟩) (m.flog (u32f pn.stats.visits))) (u32f n.stats.visits))))

/-- The selection key actually compared by the source: the UCB1 score cast
to `i32` (`self.ucb1(child) as i32`). -/
def selKey (m : FMath) (t : Tree S A) (c : Nat) : Option Int := (ucb1 m t c).map toI32

/-- Accumulator loop of Rust `Iterator::max_by_key`: keeps the current best
element and its key, and replaces it whenever a later element's key is
greater *or equal* — so among equal maxima the last element wins.  A `none`
key aborts (models a panic inside the key closure). -/
def maxByGo {β : Type} [LinearOrder β] (key : Nat → Option β) :
    Nat → β → List Nat → Option Nat
  | best, _, [] => some best
  | best, kb, c :: cs =>
    match key c with
    | none => none
    | some kc => if kb > kc then maxByGo key best kb cs else maxByGo key c kc cs

/-- Rust `Iterator::max_by_key` over a list of arena indices: `none` on the
empty list, otherwise the *last* element attaining the maximal key. -/
def maxByLastM {β : Type} [LinearOrder β] (key : Nat → Option β) :
    List Nat → Option Nat
  | [] => none
  | c :: cs =>
    match key c with
    | none => none
    | some kc => maxByGo key c kc cs

/-- `MCTS::select`: maximize the truncated key `selKey` over the children of
`i`; `none` models the `unwrap` panic on a node with no children. -/
def select (m : FMath) (t : Tree S A) (i : Nat) : Option Nat :=
  match t.node i with
  | none => none
  | some n => maxByLastM (selKey m t) n.children

/-- One backpropagation update on one node: `visits += 1; value += reward`. -/
def bpUpdate (t : Tree S A) (i : Nat) (v : F) : Tree S A :=
  t.updAt i (fun n => { n with stats := { visits := n.stats.visits + 1, value := fadd n.stats.value v } })

/-- The loop of `MCTS::backpropagate`: update the current node, then follow
the parent link; fuel bounds the number of parent steps (`none` on
exhaustion, which never happens on well-formed trees). -/
def backpropGo (v : F) : Nat → Tree S A → Nat → Option (Tree S A)
  | fuel, t, i =>
    let t1 := bpUpdate t i v
    match parentOf t i with
    | none => some t1
    | some p =>
      match fuel with
      | 0 => none
      | fuel + 1 => backpropGo v fuel t1 p

/-- `MCTS::backpropagate`, with fuel set to the arena size (enough for any
well-formed tree, whose parent indices strictly decrease). -/
def backpropagate (t : Tree S A) (i : Nat) (v : F) : Option (Tree S A) :=
  backpropGo v t.nodes.length t i

/-- The parent chain from `i` up to the first node without a parent,
mirroring the traversal of `backpropGo` step for step. -/
def chainGo : Nat → Tree S A → Nat → List Nat
  | fuel, t, i =>
    match parentOf t i with
    | none => [i]
    | some p =>
      match fuel with
      | 0 => [i]
      | fuel + 1 => i :: chainGo fuel t p

/-- `MCTS::expand`: one `add_child` per action of the node's state. -/
def expand (g : GameState S A) (t : Tree S A) (i : Nat) : Tree S A :=
  match t.node i with
  | none => t
  | some n =>
    (g.get_actions n.state).foldl
      (fun acc a => acc.add_child i (g.get_next_state n.state a) a) t

/-- `MCTS::simulate`: random rollout to a terminal state.  The random source
is an explicit list of draws (`rand::random::<usize>()` values); `none`
models fuel exhaustion, an exhausted random stream, or the index panic when
a non-terminal state has no actions (`r % 0` panics in Rust). -/
def simulate (g : GameState S A) : Nat → S → List Nat → Option (F × List Nat)
  | fuel, s, rng =>
    match g.is_terminal s with
    | some v => some (v, rng)
    | none =>
      match fuel with
      | 0 => none
      | fuel + 1 =>
        match rng with
        | [] => none
        | r :: rng1 =>
          let actions := g.get_actions s
          match actions[r % actions.length]? with
          | none => none
          | some a => simulate g fuel (g.get_next_state s a) rng1

/-- The descent loop at the top of `MCTS::search`: while the current node
has children and its state is not terminal, move to the selected child. -/
def descend (m : FMath) (g : GameState S A) : Nat → Tree S A → Nat → Option Nat
  | 0, t, i =>
    match t.node i with
    | none => none
    | some n =>
      if n.children = [] ∨ (g.is_terminal n.state).isSome = true then some i
      else none
  | fuel + 1, t, i =>
    match t.node i with
    | none => none
    | some n =>
      if n.children = [] ∨ (g.is_terminal n.state).isSome = true then some i
      else
        match select m t i with
        | none => none
        | some c => descend m g fuel t c

/-- One iteration of the `MCTS::search` loop: descend, then either
backpropagate a terminal reward, or expand, select a child, simulate from
it, and backpropagate the rollout reward.  A `none` at any step models the
corresponding panic / missing-entropy / fuel condition and aborts the
search. -/
def searchIter (m : FMath) (g : GameState S A) (fuel : Nat) (t : Tree S A)
    (rng : List Nat) : Option (Tree S A × List Nat) :=
  match descend m g fuel t 0 with
  | none => none
  | some leaf =>
    match t.node leaf with
    | none => none
    | some n =>
      match g.is_terminal n.state with
      | some v =>
        match backpropagate t leaf v with
        | none => none
        | some t2 => some (t2, rng)
      | none =>
        match select m (expand g t leaf) leaf with
        | none => none
        | some c =>
          match (expand g t leaf).node c with
          | none => none
          | some cn =>
            match simulate g fuel cn.state rng with
            | none => none
            | some (v, rng2) =>
              match backpropagate (expand g t leaf) c v with
              | none => none
              | some t2 => some (t2, rng2)

/-- `MCTS::search`: run `k` iterations, threading the tree and the random
stream; `none` as soon as one iteration panics or runs out of fuel/entropy. -/
def search (m : FMath) (g : GameState S A) (fuel : Nat) :
    Nat → Tree S A → List Nat → Option (Tree S A × List Nat)
  | 0, t, rng => some (t, rng)
  | k + 1, t, rng =>
    match searchIter m g fuel t rng with
    | none => none
    | some (t1, rng1) => search m g fuel k t1 rng1

/-- Key used by principal-variation extraction: the child's visit count. -/
def visKey (t : Tree S A) (c : Nat) : Option Nat := (t.node c).map (fun n => n.stats.visits)

/-- The child chosen at one step of `get_principal_variation`:
`max_by_key` over the children by visits (`none` when there are none). -/
def pvChoose (t : Tree S A) (i : Nat) : Option Nat :=
  match t.node i with
  | none => none
  | some n => maxByLastM (visKey t) n.children

/-- The loop of `MCTS::get_principal_variation`, embedded state-passing (the
method takes the engine by shared reference, so the tree it returns is the
tree it leaves behind): descend to the most-visited child, pushing its
action, until a node has no children.  The first component is `none` on the
`action.unwrap` panic or fuel exhaustion. -/
def pvGo (t : Tree S A) : Nat → Nat → List A → Option (List A) × Tree S A
  | 0, i, acc =>
    match pvChoose t i with
    | none => (some acc, t)
    | some c =>
      match (t.node c).bind (fun n => n.action) with
      | none => (none, t)
      | some _ => (none, t)
  | fuel + 1, i, acc =>
    match pvChoose t i with
    | none => (some acc, t)
    | some c =>
      match (t.node c).bind (fun n => n.action) with
      | none => (none, t)
      | some a => pvGo t fuel c (acc ++ [a])

/-- `MCTS::get_principal_variation` on the whole tree, starting at root. -/
def get_principal_variation (t : Tree S A) : Option (List A) × Tree S A :=
  pvGo t t.nodes.length 0 []

/-- Visit count of node `i`, defaulting to `0` for absent indices (freshly
created nodes start at `0` visits). -/
def visitsD (t : Tree S A) (i : Nat) : Nat :=
  ((t.node i).map (fun n => n.stats.visits)).getD 0

/-- Accumulated value of node `i`, defaulting to `0.0` for absent indices
(freshly created nodes start at value `0.0`). -/
def valueD (t : Tree S A) (i : Nat) : F :=
  ((t.node i).map (fun n => n.stats.value)).getD (F.fin ⟨0, 1⟩)

/-- Everything in a node except its statistics: parent, children, state,
action. -/
def skel (n : Node S A) : Option Nat × List Nat × S × Option A :=
  (n.parent, n.children, n.state, n.action)

/-- Boolean well-formedness check for one node: a parentless node is the
root (index 0), parents precede their nodes, and every child index is in
range with its parent link pointing back here. -/
def wfNodeB (t : Tree S A) (i : Nat) (n : Node S A) : Bool :=
  (match n.parent with
   | none => i == 0
   | some p => decide (p < i)) &&
  n.children.all (fun c => decide (c < t.nodes.length) && (parentOf t c == some i))

/-- Boolean well-formedness of a tree: nonempty arena, root has no parent,
and every node passes `wfNodeB`.  Every tree reachable from `Tree.new`
through the engine's operations satisfies this. -/
def wfB (t : Tree S A) : Bool :=
  decide (0 < t.nodes.length) && (parentOf t 0 == none) &&
  (List.range t.nodes.length).all (fun i =>
    match t.node i with
    | none => true
    | some n => wfNodeB t i n)

/-- Well-formedness as a proposition (reducible, so that it stays decidable
on concrete trees). -/
@[reducible] def WF (t : Tree S A) : Prop := wfB t = true

/-- The fold inside `expand`, abstracted over the state-transition closure. -/
def expandFold (i : Nat) (f : A → S) (acts : List A) (t : Tree S A) : Tree S A :=
  acts.foldl (fun acc a => acc.add_child i (f a) a) t

/-- A reachable tree shape: a parent visited once whose first child was
visited once with accumulated value `2.0` and whose second child is still
unvisited. -/
def tZeroVisit : Tree Unit Unit :=
  { nodes := [
      { parent := none, children := [1, 2],
        stats := { visits := 1, value := F.fin ⟨0, 1⟩ }, state := (), action := none },
      { parent := some 0, children := [],
        stats := { visits := 1, value := F.fin ⟨2, 1⟩ }, state := (), action := some () },
      { parent := some 0, children := [],
        stats := { visits := 0, value := F.fin ⟨0, 1⟩ }, state := (), action := some () }] }

/-- A parent visited once with two children visited once each, of
accumulated values `1.5` and `1.25` (both exactly representable in `f32`). -/
def tTrunc : Tree Unit Unit :=
  { nodes := [
      { parent := none, children := [1, 2],
        stats := { visits := 1, value := F.fin ⟨0, 1⟩ }, state := (), action := none },
      { parent := some 0, children := [],
        stats := { visits := 1, value := F.fin ⟨3, 2⟩ }, state := (), action := some () },
      { parent := some 0, children := [],
        stats := { visits := 1, value := F.fin ⟨5, 4⟩ }, state := (), action := some () }] }

/-- A parent visited once with two children in an exact tie: equal visits
and equal accumulated values `1.0`. -/
def tTie : Tree Unit Unit :=
  { nodes := [
      { parent := none, children := [1, 2],
        stats := { visits := 1, value := F.fin ⟨0, 1⟩ }, state := (), action := none },
      { parent := some 0, children := [],
        stats := { visits := 1, value := F.fin ⟨1, 1⟩ }, state := (), action := some () },
      { parent := some 0, children := [],
        stats := { visits := 1, value := F.fin ⟨1, 1⟩ }, state := (), action := some () }] }

/-- A game whose every state is terminal with reward `1.0`. -/
def gTerm : GameState Nat Nat :=
  { get_actions := fun _ => [],
    get_next_state := fun st _ => st,
    is_terminal := fun _ => some (F.fin ⟨1, 1⟩) }

/-- A single-pile counting game where the only move removes one token;
pile `0` is terminal with reward `1.0`. -/
def gNim : GameState Nat Nat :=
  { get_actions := fun n => if n = 0 then [] else [1],
    get_next_state := fun n a => n - a,
    is_terminal := fun n => if n = 0 then some (F.fin ⟨1, 1⟩) else none }

/-- A contract-violating state model: never terminal, yet no legal action. -/
def gBad : GameState Unit Unit :=
  { get_actions := fun _ => [],
    get_next_state := fun st _ => st,
    is_terminal := fun _ => none }

/-- The tree produced by one search iteration of `gTerm` from a fresh root:
the terminal reward `1.0` backpropagated through the root once. -/
def tTermOne : Tree Nat Nat :=
  { nodes := [
      { parent := none, children := [],
        stats := { visits := 1, value := F.fin ⟨1, 1⟩ }, state := 0, action := none }] }

/-- The tree produced by `search(2)` of `gTerm` from a fresh root. -/
def tTermTwo : Tree Nat Nat :=
  { nodes := [
      { parent := none, children := [],
        stats := { visits := 2, value := F.fin ⟨2, 1⟩ }, state := 0, action := none }] }

/-- The tree produced by `search(1)` of `gNim` from pile `2`: the root was
expanded with its single action, the child rolled out to the terminal pile
and reward `1.0` backpropagated through both. -/
def tNimOne : Tree Nat Nat :=
  { nodes := [
      { parent := none, children := [1],
        stats := { visits := 1, value := F.fin ⟨1, 1⟩ }, state := 2, action := none },
      { parent := some 0, children := [],
        stats := { visits := 1, value := F.fin ⟨1, 1⟩ }, state := 1, action := some 1 }] }

/-- The propositional content of `wfB`, stated through lookups: nonempty
arena, parentless root, parent indices strictly below their nodes, only the
root parentless, and children in range with correct back-links. -/
def WFP (t : Tree S A) : Prop :=
  0 < t.nodes.length ∧ parentOf t 0 = none ∧
  (∀ i n p, t.node i = some n → n.parent = some p → p < i) ∧
  (∀ i n, t.node i = some n → n.parent = none → i = 0) ∧
  (∀ i n c, t.node i = some n → c ∈ n.children →
    c < t.nodes.length ∧ parentOf t c = some i)

/-! ### Basic arena lemmas -/

theorem node_lt_length {t : Tree S A} {i : Nat} {n : Node S A}
    (h : t.node i = some n) : i < t.nodes.length :=
  (List.getElem?_eq_some.mp h).1

theorem node_of_lt {t : Tree S A} {i : Nat} (h : i < t.nodes.length) :
    t.node i = some t.nodes[i] :=
  List.getElem?_eq_getElem h

theorem node_none_of_le {t : Tree S A} {i : Nat} (h : t.nodes.length ≤ i) :
    t.node i = none :=
  List.getElem?_eq_none h

theorem updAt_of_none {t : Tree S A} {i : Nat} (f : Node S A → Node S A)
    (h : t.node i = none) : t.updAt i f = t := by
  unfold Tree.updAt
  rw [show t.nodes[i]? = none from h]

theorem updAt_length (t : Tree S A) (i : Nat) (f : Node S A → Node S A) :
    (t.updAt i f).nodes.length = t.nodes.length := by
  unfold Tree.updAt
  cases h : t.nodes[i]? with
  | none => rfl
  | some n => simp

theorem updAt_node_eq {t : Tree S A} {i : Nat} {n : Node S A} (f : Node S A → Node S A)
    (h : t.node i = some n) : (t.updAt i f).node i = some (f n) := by
  unfold Tree.updAt
  rw [show t.nodes[i]? = some n from h]
  show (t.nodes.set i (f n))[i]? = some (f n)
  rw [List.getElem?_set_self (node_lt_length h)]

theorem updAt_node_ne {t : Tree S A} {i j : Nat} (f : Node S A → Node S A)
    (hne : j ≠ i) : (t.updAt i f).node j = t.node j := by
  unfold Tree.updAt
  cases h : t.nodes[i]? with
  | none => rfl
  | some n =>
    show (t.nodes.set i (f n))[j]? = t.nodes[j]?
    rw [List.getElem?_set_ne (Ne.symm hne)]

/-- The boolean well-formedness check holds exactly when the propositional
characterization does. -/
theorem wf_iff {t : Tree S A} : WF t ↔ WFP t := by
  unfold WF WFP wfB
  rw [Bool.and_eq_true, Bool.and_eq_true]
  constructor
  · rintro ⟨⟨hA, hB⟩, hC⟩
    have hlen : 0 < t.nodes.length := of_decide_eq_true hA
    have hroot : parentOf t 0 = none := eq_of_beq hB
    have hall := List.all_eq_true.mp hC
    have hnode : ∀ i n, t.node i = some n → wfNodeB t i n = true := by
      intro i n hn
      have hi := node_lt_length hn
      have h2 := hall i (List.mem_range.mpr hi)
      simp only [hn] at h2
      exact h2
    refine ⟨hlen, hroot, ?_, ?_, ?_⟩
    · intro i n p hn hp
      have h2 := hnode i n hn
      unfold wfNodeB at h2
      rw [Bool.and_eq_true] at h2
      have h3 := h2.1
      rw [hp] at h3
      exact of_decide_eq_true h3
    · intro i n hn hp
      have h2 := hnode i n hn
      unfold wfNodeB at h2
      rw [Bool.and_eq_true] at h2
      have h3 := h2.1
      rw [hp] at h3
      exact beq_iff_eq.mp h3
    · intro i n c hn hc
      have h2 := hnode i n hn
      unfold wfNodeB at h2
      rw [Bool.and_eq_true] at h2
      have h3 := List.all_eq_true.mp h2.2 c hc
      rw [Bool.and_eq_true] at h3
      exact ⟨of_decide_eq_true h3.1, eq_of_beq h3.2⟩
  · rintro ⟨hlen, hroot, hplt, hpnone, hchild⟩
    refine ⟨⟨decide_eq_true hlen, beq_iff_eq.mpr hroot⟩, ?_⟩
    rw [List.all_eq_true]
    intro i _
    cases hn : t.node i with
    | none => simp only [hn]
    | some n =>
      simp only [hn]
      unfold wfNodeB
      rw [Bool.and_eq_true]
      constructor
      · cases hp : n.parent with
        | none => exact beq_iff_eq.mpr (hpnone i n hn hp)
        | some p => exact decide_eq_true (hplt i n p hn hp)
      · rw [List.all_eq_true]
        intro c hc
        rw [Bool.and_eq_true]
        obtain ⟨h1, h2⟩ := hchild i n c hn hc
        exact ⟨decide_eq_true h1, beq_iff_eq.mpr h2⟩

/-! ### Stats updates preserve the tree skeleton -/

theorem bpUpdate_length (t : Tree S A) (i : Nat) (v : F) :
    (bpUpdate t i v).nodes.length = t.nodes.length :=
  updAt_length t i _

theorem bpUpdate_node_ne {t : Tree S A} {i j : Nat} (v : F) (hne : j ≠ i) :
    (bpUpdate t i v).node j = t.node j :=
  updAt_node_ne _ hne

theorem bpUpdate_node_eq {t : Tree S A} {i : Nat} {n : Node S A} (v : F)
    (h : t.node i = some n) :
    (bpUpdate t i v).node i =
      some { n with stats := { visits := n.stats.visits + 1, value := fadd n.stats.value v } } :=
  updAt_node_eq _ h

theorem bpUpdate_skel (t : Tree S A) (i : Nat) (v : F) (j : Nat) :
    ((bpUpdate t i v).node j).map skel = (t.node j).map skel := by
  rcases eq_or_ne j i with rfl | hne
  · cases h : t.node j with
    | none => rw [show bpUpdate t j v = t from updAt_of_none _ h, h]
    | some n => simp [bpUpdate_node_eq v h, h, skel]
  · rw [bpUpdate_node_ne v hne]

theorem parentOf_eq_of_skel {t t' : Tree S A} {j : Nat}
    (h : (t'.node j).map skel = (t.node j).map skel) :
    parentOf t' j = parentOf t j := by
  unfold parentOf
  cases h1 : t'.node j <;> cases h2 : t.node j <;>
    simp only [h1, h2, Option.map_some, Option.map_none] at h ⊢ <;>
    simp_all [skel, Option.bind]

theorem bpUpdate_parentOf (t : Tree S A) (i : Nat) (v : F) (j : Nat) :
    parentOf (bpUpdate t i v) j = parentOf t j :=
  parentOf_eq_of_skel (bpUpdate_skel t i v j)

/-! ### Facts extracted from well-formedness -/

theorem wfp_parent_lt {t : Tree S A} (h : WFP t) {j p : Nat}
    (hp : parentOf t j = some p) : p < j := by
  unfold parentOf at hp
  cases hn : t.node j with
  | none => rw [hn] at hp; cases hp
  | some n =>
    rw [hn] at hp
    exact h.2.2.1 j n p hn hp

theorem wfp_parent_none {t : Tree S A} (h : WFP t) {j : Nat}
    (hj : j < t.nodes.length) (hp : parentOf t j = none) : j = 0 := by
  have hn := @node_of_lt S A t j hj
  unfold parentOf at hp
  rw [hn] at hp
  exact h.2.2.2.1 j _ hn hp

theorem wfp_child {t : Tree S A} (h : WFP t) {i c : Nat} {n : Node S A}
    (hn : t.node i = some n) (hc : c ∈ n.children) :
    c < t.nodes.length ∧ parentOf t c = some i :=
  h.2.2.2.2 i n c hn hc

/-! ### The backpropagation chain -/

theorem chainGo_bpUpdate (v : F) :
    ∀ (fuel : Nat) (t : Tree S A) (j i : Nat),
      chainGo fuel (bpUpdate t j v) i = chainGo fuel t i := by
  intro fuel
  induction fuel with
  | zero =>
    intro t j i
    unfold chainGo
    rw [bpUpdate_parentOf]
  | succ f ih =>
    intro t j i
    unfold chainGo
    rw [bpUpdate_parentOf]
    cases hp : parentOf t i with
    | none => rfl
    | some p => exact congrArg (List.cons i) (ih t j p)

theorem chainGo_mem_le {t : Tree S A}
    (hlt : ∀ j p, parentOf t j = some p → p < j) :
    ∀ (fuel i j : Nat), j ∈ chainGo fuel t i → j ≤ i := by
  intro fuel
  induction fuel with
  | zero =>
    intro i j hj
    unfold chainGo at hj
    cases hp : parentOf t i with
    | none => rw [hp] at hj; simp at hj; omega
    | some p => rw [hp] at hj; simp at hj; omega
  | succ f ih =>
    intro i j hj
    unfold chainGo at hj
    cases hp : parentOf t i with
    | none => rw [hp] at hj; simp at hj; omega
    | some p =>
      rw [hp] at hj
      rcases List.mem_cons.mp hj with rfl | hj2
      · exact le_refl j
      · have := ih p j hj2
        have := hlt i p hp
        omega

theorem chainGo_zero_mem {t : Tree S A} (hw : WFP t) :
    ∀ (fuel i : Nat), i < t.nodes.length → i ≤ fuel → 0 ∈ chainGo fuel t i := by
  intro fuel
  induction fuel with
  | zero =>
    intro i hi hle
    have h0 : i = 0 := Nat.le_zero.mp hle
    subst h0
    unfold chainGo
    rw [hw.2.1]
    exact List.mem_singleton.mpr rfl
  | succ f ih =>
    intro i hi hle
    unfold chainGo
    cases hp : parentOf t i with
    | none =>
      have h0 : i = 0 := wfp_parent_none hw hi hp
      subst h0
      exact List.mem_singleton.mpr rfl
    | some p =>
      have hpi : p < i := wfp_parent_lt hw hp
      exact List.mem_cons_of_mem i (ih p (lt_trans hpi hi) (by omega))

/-! ### Full specification of the backpropagation loop -/

theorem backpropGo_spec (v : F) :
    ∀ (fuel : Nat) (t : Tree S A) (i : Nat),
      (∀ j p, parentOf t j = some p → p < j) →
      i < t.nodes.length → i ≤ fuel →
      ∃ t', backpropGo v fuel t i = some t' ∧
        t'.nodes.length = t.nodes.length ∧
        (∀ j, ((t'.node j).map skel) = ((t.node j).map skel)) ∧
        (∀ j, j ∈ chainGo fuel t i →
          visitsD t' j = visitsD t j + 1 ∧ valueD t' j = fadd (valueD t j) v) ∧
        (∀ j, j ∉ chainGo fuel t i → t'.node j = t.node j) := by
  intro fuel
  induction fuel with
  | zero =>
    intro t i hlt hi hle
    have h0 : i = 0 := Nat.le_zero.mp hle
    subst h0
    have hn := @node_of_lt S A t _ hi
    cases hp : parentOf t 0 with
    | some p => exact absurd (hlt 0 p hp) (by omega)
    | none =>
      refine ⟨bpUpdate t 0 v, ?_, bpUpdate_length t 0 v, bpUpdate_skel t 0 v, ?_, ?_⟩
      · unfold backpropGo; rw [hp]
      · intro j hj
        unfold chainGo at hj
        rw [hp] at hj
        have hj0 : j = 0 := List.mem_singleton.mp hj
        subst hj0
        rw [visitsD, valueD, visitsD, valueD, bpUpdate_node_eq v hn, hn]
        exact ⟨rfl, rfl⟩
      · intro j hj
        unfold chainGo at hj
        rw [hp] at hj
        exact bpUpdate_node_ne v (fun h => hj (h ▸ List.mem_singleton.mpr rfl))
  | succ f ih =>
    intro t i hlt hi hle
    have hn := @node_of_lt S A t _ hi
    cases hp : parentOf t i with
    | none =>
      refine ⟨bpUpdate t i v, ?_, bpUpdate_length t i v, bpUpdate_skel t i v, ?_, ?_⟩
      · unfold backpropGo; rw [hp]
      · intro j hj
        unfold chainGo at hj
        rw [hp] at hj
        have hj0 : j = i := List.mem_singleton.mp hj
        subst hj0
        rw [visitsD, valueD, visitsD, valueD, bpUpdate_node_eq v hn, hn]
        exact ⟨rfl, rfl⟩
      · intro j hj
        unfold chainGo at hj
        rw [hp] at hj
        exact bpUpdate_node_ne v (fun h => hj (h ▸ List.mem_singleton.mpr rfl))
    | some p =>
      have hpi : p < i := hlt i p hp
      have hlt1 : ∀ j q, parentOf (bpUpdate t i v) j = some q → q < j := by
        intro j q hq
        rw [bpUpdate_parentOf] at hq
        exact hlt j q hq
      have hp1 : p < (bpUpdate t i v).nodes.length := by
        rw [bpUpdate_length]; omega
      obtain ⟨t', hrun, hlen, hskel, hmem, hnot⟩ :=
        ih (bpUpdate t i v) p hlt1 hp1 (by omega)
      have hchain1 : chainGo f (bpUpdate t i v) p = chainGo f t p :=
        chainGo_bpUpdate v f t i p
      have hchain : chainGo (f + 1) t i = i :: chainGo f t p := by
        conv_lhs => unfold chainGo
        rw [hp]
      have hinotmem : i ∉ chainGo f t p := by
        intro hmem2
        have := chainGo_mem_le hlt f p i hmem2
        omega
      refine ⟨t', ?_, ?_, ?_, ?_, ?_⟩
      · unfold backpropGo
        rw [hp]
        exact hrun
      · rw [hlen, bpUpdate_length]
      · intro j
        rw [hskel j, bpUpdate_skel]
      · intro j hj
        rw [hchain] at hj
        rcases List.mem_cons.mp hj with rfl | hj2
        · have hji : j ∉ chainGo f (bpUpdate t j v) p := by rw [hchain1]; exact hinotmem
          have heq := hnot j hji
          rw [visitsD, valueD, heq, bpUpdate_node_eq v hn, visitsD, valueD, hn]
          exact ⟨rfl, rfl⟩
        · have hj1 : j ∈ chainGo f (bpUpdate t i v) p := by rw [hchain1]; exact hj2
          obtain ⟨h1, h2⟩ := hmem j hj1
          have hji : j ≠ i := by
            have := chainGo_mem_le hlt f p j hj2
            omega
          rw [h1, h2, visitsD, valueD, bpUpdate_node_ne v hji]
          exact ⟨rfl, rfl⟩
      · intro j hj
        rw [hchain] at hj
        have hji : j ≠ i := fun h => hj (h ▸ List.mem_cons_self i _)
        have hj2 : j ∉ chainGo f (bpUpdate t i v) p := by
          rw [hchain1]
          exact fun h => hj (List.mem_cons_of_mem i h)
        rw [hnot j hj2, bpUpdate_node_ne v hji]

/-! ### Skeleton equality preserves well-formedness -/

theorem node_of_skel {t t' : Tree S A}
    (hskel : ∀ j, (t'.node j).map skel = (t.node j).map skel)
    {i : Nat} {n' : Node S A} (h : t'.node i = some n') :
    ∃ n, t.node i = some n ∧ n.parent = n'.parent ∧ n.children = n'.children ∧
      n.state = n'.state ∧ n.action = n'.action := by
  have hs := hskel i
  rw [h] at hs
  cases h2 : t.node i with
  | none => rw [h2] at hs; cases hs
  | some n =>
    rw [h2] at hs
    simp only [Option.map_some', Option.some.injEq] at hs
    unfold skel at hs
    rw [Prod.mk.injEq, Prod.mk.injEq, Prod.mk.injEq] at hs
    exact ⟨n, rfl, hs.1.symm, hs.2.1.symm, hs.2.2.1.symm, hs.2.2.2.symm⟩

theorem wfp_of_skel {t t' : Tree S A} (hw : WFP t)
    (hlen : t'.nodes.length = t.nodes.length)
    (hskel : ∀ j, (t'.node j).map skel = (t.node j).map skel) : WFP t' := by
  have hpar : ∀ j, parentOf t' j = parentOf t j :=
    fun j => parentOf_eq_of_skel (hskel j)
  refine ⟨by rw [hlen]; exact hw.1, by rw [hpar 0]; exact hw.2.1, ?_, ?_, ?_⟩
  · intro i n' p hn' hp
    obtain ⟨n, hn, hpeq, -, -, -⟩ := node_of_skel hskel hn'
    exact hw.2.2.1 i n p hn (hpeq.trans hp)
  · intro i n' hn' hp
    obtain ⟨n, hn, hpeq, -, -, -⟩ := node_of_skel hskel hn'
    exact hw.2.2.2.1 i n hn (hpeq.trans hp)
  · intro i n' c hn' hc
    obtain ⟨n, hn, -, hceq, -, -⟩ := node_of_skel hskel hn'
    obtain ⟨h1, h2⟩ := hw.2.2.2.2 i n c hn (hceq ▸ hc)
    exact ⟨by rw [hlen]; exact h1, by rw [hpar c]; exact h2⟩

/-! ### The `backpropagate` wrapper -/

theorem backpropagate_spec {t : Tree S A} (hw : WFP t) {i : Nat}
    (hi : i < t.nodes.length) (v : F) :
    ∃ t', backpropagate t i v = some t' ∧
      t'.nodes.length = t.nodes.length ∧
      (∀ j, ((t'.node j).map skel) = ((t.node j).map skel)) ∧
      WFP t' ∧
      0 ∈ chainGo t.nodes.length t i ∧
      (∀ j, j ∈ chainGo t.nodes.length t i →
        visitsD t' j = visitsD t j + 1 ∧ valueD t' j = fadd (valueD t j) v) ∧
      (∀ j, j ∉ chainGo t.nodes.length t i → t'.node j = t.node j) := by
  obtain ⟨t', hrun, hlen, hskel, hmem, hnot⟩ :=
    backpropGo_spec v t.nodes.length t i (fun j p hp => wfp_parent_lt hw hp) hi (le_of_lt hi)
  exact ⟨t', hrun, hlen, hskel, wfp_of_skel hw hlen hskel,
    chainGo_zero_mem hw t.nodes.length i hi (le_of_lt hi), hmem, hnot⟩

theorem backpropagate_root_visits {t t' : Tree S A} (hw : WFP t) {i : Nat}
    (hi : i < t.nodes.length) {v : F} (hrun : backpropagate t i v = some t') :
    visitsD t' 0 = visitsD t 0 + 1 := by
  obtain ⟨t2, hrun2, -, -, -, hzero, hmem, -⟩ := backpropagate_spec hw hi v
  rw [hrun] at hrun2
  cases hrun2
  exact (hmem 0 hzero).1

/-! ### Effects of `add_child` -/

theorem append_node {t : Tree S A} {k : Nat} (x : Node S A) (hk : k < t.nodes.length) :
    (t.nodes ++ [x])[k]? = t.nodes[k]? := by
  rw [List.getElem?_append]
  simp [hk]

theorem add_child_length (t : Tree S A) (i : Nat) (s : S) (a : A) :
    (t.add_child i s a).nodes.length = t.nodes.length + 1 := by
  unfold Tree.add_child
  rw [updAt_length]
  simp

theorem add_child_node_at {t : Tree S A} {i : Nat} {n : Node S A}
    (hn : t.node i = some n) (s : S) (a : A) :
    (t.add_child i s a).node i =
      some { n with children := n.children ++ [t.nodes.length] } := by
  unfold Tree.add_child
  have hi := node_lt_length hn
  have h1 : (Tree.mk (t.nodes ++ [{ Node.mk0 s (some a) with parent := some i }]) : Tree S A).node i = some n := by
    show (t.nodes ++ _)[i]? = some n
    rw [append_node _ hi]
    exact hn
  exact updAt_node_eq _ h1

theorem add_child_node_new (t : Tree S A) {i : Nat} (hi : i < t.nodes.length) (s : S) (a : A) :
    (t.add_child i s a).node t.nodes.length =
      some { Node.mk0 s (some a) with parent := some i } := by
  unfold Tree.add_child
  rw [updAt_node_ne _ (by omega)]
  show (t.nodes ++ _)[t.nodes.length]? = _
  simp

theorem add_child_node_other (t : Tree S A) {i k : Nat} (s : S) (a : A)
    (hki : k ≠ i) (hkl : k ≠ t.nodes.length) :
    (t.add_child i s a).node k = t.node k := by
  unfold Tree.add_child
  rw [updAt_node_ne _ hki]
  rcases Nat.lt_or_ge k t.nodes.length with hk | hk
  · exact append_node _ hk
  · have hk2 : t.nodes.length < k + 1 := by omega
    show (t.nodes ++ _)[k]? = t.nodes[k]?
    rw [@List.getElem?_eq_none _ t.nodes _ hk, List.getElem?_eq_none]
    simp
    omega

theorem add_child_parentOf {t : Tree S A} {i : Nat} {n : Node S A}
    (hn : t.node i = some n) (s : S) (a : A) {c : Nat} (hc : c ≠ t.nodes.length) :
    parentOf (t.add_child i s a) c = parentOf t c := by
  unfold parentOf
  rcases eq_or_ne c i with rfl | hci
  · rw [add_child_node_at hn s a, hn]; rfl
  · rw [add_child_node_other t s a hci hc]

theorem add_child_visitsD {t : Tree S A} {i : Nat} {n : Node S A}
    (hn : t.node i = some n) (s : S) (a : A) (k : Nat) :
    visitsD (t.add_child i s a) k = visitsD t k ∧
      valueD (t.add_child i s a) k = valueD t k := by
  have hi := node_lt_length hn
  unfold visitsD valueD
  rcases eq_or_ne k i with rfl | hki
  · rw [add_child_node_at hn s a, hn]; exact ⟨rfl, rfl⟩
  · rcases eq_or_ne k t.nodes.length with rfl | hkl
    · rw [add_child_node_new t hi s a, node_none_of_le (le_refl _)]
      exact ⟨rfl, rfl⟩
    · rw [add_child_node_other t s a hki hkl]; exact ⟨rfl, rfl⟩

theorem add_child_wfp {t : Tree S A} (hw : WFP t) {i : Nat} {n : Node S A}
    (hn : t.node i = some n) (s : S) (a : A) : WFP (t.add_child i s a) := by
  have hi := node_lt_length hn
  have hlen := add_child_length t i s a
  refine ⟨by omega, ?_, ?_, ?_, ?_⟩
  · rw [add_child_parentOf hn s a (by omega)]
    exact hw.2.1
  · intro k nk p hk hp
    rcases eq_or_ne k i with rfl | hki
    · rw [add_child_node_at hn s a] at hk
      cases hk
      exact hw.2.2.1 k n p hn hp
    · rcases eq_or_ne k t.nodes.length with rfl | hkl
      · rw [add_child_node_new t hi s a] at hk
        cases hk
        cases hp
        exact hi
      · rw [add_child_node_other t s a hki hkl] at hk
        exact hw.2.2.1 k nk p hk hp
  · intro k nk hk hp
    rcases eq_or_ne k i with rfl | hki
    · rw [add_child_node_at hn s a] at hk
      cases hk
      exact hw.2.2.2.1 k n hn hp
    · rcases eq_or_ne k t.nodes.length with rfl | hkl
      · rw [add_child_node_new t hi s a] at hk
        cases hk
        cases hp
      · rw [add_child_node_other t s a hki hkl] at hk
        exact hw.2.2.2.1 k nk hk hp
  · intro k nk c hk hc
    rcases eq_or_ne k i with rfl | hki
    · rw [add_child_node_at hn s a] at hk
      cases hk
      simp only [List.mem_append, List.mem_singleton] at hc
      rcases hc with hc | rfl
      · obtain ⟨h1, h2⟩ := hw.2.2.2.2 k n c hn hc
        have hclen : c ≠ t.nodes.length := by omega
        exact ⟨by omega, by rw [add_child_parentOf hn s a hclen]; exact h2⟩
      · refine ⟨by omega, ?_⟩
        unfold parentOf
        rw [add_child_node_new t hi s a]
        rfl
    · rcases eq_or_ne k t.nodes.length with rfl | hkl
      · rw [add_child_node_new t hi s a] at hk
        cases hk
        cases hc
      · rw [add_child_node_other t s a hki hkl] at hk
        obtain ⟨h1, h2⟩ := hw.2.2.2.2 k nk c hk hc
        have hclen : c ≠ t.nodes.length := by omega
        exact ⟨by omega, by rw [add_child_parentOf hn s a hclen]; exact h2⟩

/-! ### Effects of `expand` -/

theorem expand_eq_fold {g : GameState S A} {t : Tree S A} {i : Nat} {n : Node S A}
    (hn : t.node i = some n) :
    expand g t i = expandFold i (g.get_next_state n.state) (g.get_actions n.state) t := by
  unfold expand expandFold
  rw [hn]

theorem expandFold_spec (i : Nat) (f : A → S) :
    ∀ (acts : List A) (t : Tree S A) (n : Node S A), WFP t → t.node i = some n →
      ∃ n2, (expandFold i f acts t).node i = some n2 ∧
        WFP (expandFold i f acts t) ∧
        (expandFold i f acts t).nodes.length = t.nodes.length + acts.length ∧
        n2.children.length = n.children.length + acts.length ∧
        n2.stats = n.stats ∧ n2.state = n.state ∧ n2.parent = n.parent ∧
        n2.action = n.action ∧
        (∀ k, visitsD (expandFold i f acts t) k = visitsD t k ∧
          valueD (expandFold i f acts t) k = valueD t k) := by
  intro acts
  induction acts with
  | nil =>
    intro t n hw hn
    exact ⟨n, hn, hw, by simp [expandFold], by simp, rfl, rfl, rfl, rfl, fun k => ⟨rfl, rfl⟩⟩
  | cons a as ih =>
    intro t n hw hn
    have hstep : expandFold i f (a :: as) t = expandFold i f as (t.add_child i (f a) a) := by
      unfold expandFold
      rw [List.foldl_cons]
    have hn1 := add_child_node_at hn (f a) a
    have hw1 := add_child_wfp hw hn (f a) a
    obtain ⟨n2, hn2, hw2, hlen2, hch2, hst2, hsa2, hpa2, hac2, hvis2⟩ :=
      ih (t.add_child i (f a) a) _ hw1 hn1
    rw [hstep]
    refine ⟨n2, hn2, hw2, ?_, ?_, hst2, hsa2, hpa2, hac2, ?_⟩
    · rw [hlen2, add_child_length]
      simp
      omega
    · rw [hch2]
      simp
      omega
    · intro k
      obtain ⟨h1, h2⟩ := hvis2 k
      obtain ⟨h3, h4⟩ := add_child_visitsD hn (f a) a k
      exact ⟨h1.trans h3, h2.trans h4⟩

/-! ### `max_by_key` returns the last maximal element -/

theorem maxByGo_nil {β : Type} [LinearOrder β] (key : Nat → Option β)
    (best : Nat) (kb : β) : maxByGo key best kb [] = some best := rfl

theorem maxByGo_cons_eq {β : Type} [LinearOrder β] (key : Nat → Option β)
    (best c : Nat) (kb : β) (cs : List Nat) :
    maxByGo key best kb (c :: cs) =
      match key c with
      | none => none
      | some kc => if kb > kc then maxByGo key best kb cs else maxByGo key c kc cs := rfl

theorem maxByGo_cons {β : Type} [LinearOrder β] (key : Nat → Option β)
    (best c : Nat) (kb kc : β) (cs : List Nat) (hk : key c = some kc) :
    maxByGo key best kb (c :: cs) =
      if kb > kc then maxByGo key best kb cs else maxByGo key c kc cs := by
  rw [maxByGo_cons_eq, hk]

theorem maxByGo_cons_none {β : Type} [LinearOrder β] (key : Nat → Option β)
    (best c : Nat) (kb : β) (cs : List Nat) (hk : key c = none) :
    maxByGo key best kb (c :: cs) = none := by
  rw [maxByGo_cons_eq, hk]

/-- Invariant of the `max_by_key` accumulator loop: the result is either
the running best (with everything remaining strictly smaller), or the last
element of the remainder attaining a key at least the running best's, with
everything after it strictly smaller. -/
theorem maxByGo_last {β : Type} [LinearOrder β] (key : Nat → Option β) :
    ∀ (cs : List Nat) (best : Nat) (kb : β) (r : Nat),
      key best = some kb →
      maxByGo key best kb cs = some r →
      (r = best ∧ ∀ x ∈ cs, ∃ kx, key x = some kx ∧ kx < kb) ∨
      (∃ kr l1 l2, key r = some kr ∧ kb ≤ kr ∧ cs = l1 ++ r :: l2 ∧
        (∀ x ∈ l1, ∃ kx, key x = some kx ∧ kx ≤ kr) ∧
        (∀ x ∈ l2, ∃ kx, key x = some kx ∧ kx < kr)) := by
  intro cs
  induction cs with
  | nil =>
    intro best kb r hb h
    rw [maxByGo_nil] at h
    cases h
    exact Or.inl ⟨rfl, by simp⟩
  | cons c cs ih =>
    intro best kb r hb h
    cases hk : key c with
    | none => rw [maxByGo_cons_none key best c kb cs hk] at h; cases h
    | some kc =>
      rw [maxByGo_cons key best c kb kc cs hk] at h
      by_cases hgt : kb > kc
      · rw [if_pos hgt] at h
        rcases ih best kb r hb h with ⟨rfl, hall⟩ | ⟨kr, l1, l2, h1, h2, h3, h4, h5⟩
        · left
          refine ⟨rfl, ?_⟩
          intro x hx
          rcases List.mem_cons.mp hx with rfl | hx2
          · exact ⟨kc, hk, hgt⟩
          · exact hall x hx2
        · right
          refine ⟨kr, c :: l1, l2, h1, h2, by rw [h3]; rfl, ?_, h5⟩
          intro x hx
          rcases List.mem_cons.mp hx with rfl | hx2
          · exact ⟨kc, hk, le_of_lt (lt_of_lt_of_le hgt h2)⟩
          · exact h4 x hx2
      · have hle : kb ≤ kc := not_lt.mp hgt
        rw [if_neg hgt] at h
        rcases ih c kc r hk h with ⟨rfl, hall⟩ | ⟨kr, l1, l2, h1, h2, h3, h4, h5⟩
        · right
          exact ⟨kc, [], cs, hk, hle, rfl, by simp, hall⟩
        · right
          refine ⟨kr, c :: l1, l2, h1, le_trans hle h2, by rw [h3]; rfl, ?_, h5⟩
          intro x hx
          rcases List.mem_cons.mp hx with rfl | hx2
          · exact ⟨kc, hk, h2⟩
          · exact h4 x hx2

theorem maxByLastM_cons {β : Type} [LinearOrder β] (key : Nat → Option β)
    (c : Nat) (cs : List Nat) :
    maxByLastM key (c :: cs) =
      match key c with
      | none => none
      | some kc => maxByGo key c kc cs := rfl

/-- `max_by_key` over a nonempty list returns the last element attaining
the maximal key: everything before it has key at most the result's, and
everything after it has key strictly smaller. -/
theorem maxByLastM_last {β : Type} [LinearOrder β] (key : Nat → Option β)
    {cs : List Nat} {r : Nat} (h : maxByLastM key cs = some r) :
    ∃ kr l1 l2, key r = some kr ∧ cs = l1 ++ r :: l2 ∧
      (∀ x ∈ l1, ∃ kx, key x = some kx ∧ kx ≤ kr) ∧
      (∀ x ∈ l2, ∃ kx, key x = some kx ∧ kx < kr) := by
  cases cs with
  | nil => cases h
  | cons c cs =>
    rw [maxByLastM_cons] at h
    cases hk : key c with
    | none => rw [hk] at h; cases h
    | some kc =>
      rw [hk] at h
      rcases maxByGo_last key cs c kc r hk h with ⟨rfl, hall⟩ | ⟨kr, l1, l2, h1, h2, h3, h4, h5⟩
      · exact ⟨kc, [], cs, hk, rfl, by simp, hall⟩
      · refine ⟨kr, c :: l1, l2, h1, by rw [h3]; rfl, ?_, h5⟩
        intro x hx
        rcases List.mem_cons.mp hx with rfl | hx2
        · exact ⟨kc, hk, h2⟩
        · exact h4 x hx2

theorem maxByLastM_mem {β : Type} [LinearOrder β] (key : Nat → Option β)
    {cs : List Nat} {r : Nat} (h : maxByLastM key cs = some r) : r ∈ cs := by
  obtain ⟨kr, l1, l2, h1, h2, h3, h4⟩ := maxByLastM_last key h
  rw [h2]
  exact List.mem_append_right l1 (List.mem_cons_self r l2)

/-! ### `select` and `descend` -/

theorem select_mem {m : FMath} {t : Tree S A} {i c : Nat}
    (h : select m t i = some c) : ∃ n, t.node i = some n ∧ c ∈ n.children := by
  unfold select at h
  cases hn : t.node i with
  | none => rw [hn] at h; cases h
  | some n =>
    rw [hn] at h
    exact ⟨n, rfl, maxByLastM_mem _ h⟩

theorem descend_zero (m : FMath) (g : GameState S A) (t : Tree S A) (i : Nat) :
    descend m g 0 t i =
      match t.node i with
      | none => none
      | some n =>
        if n.children = [] ∨ (g.is_terminal n.state).isSome = true then some i
        else none := rfl

theorem descend_succ (m : FMath) (g : GameState S A) (f : Nat) (t : Tree S A) (i : Nat) :
    descend m g (f + 1) t i =
      match t.node i with
      | none => none
      | some n =>
        if n.children = [] ∨ (g.is_terminal n.state).isSome = true then some i
        else
          match select m t i with
          | none => none
          | some c => descend m g f t c := rfl

theorem descend_some {m : FMath} {g : GameState S A} :
    ∀ (fuel : Nat) (t : Tree S A) (i j : Nat), descend m g fuel t i = some j →
      ∃ n, t.node j = some n := by
  intro fuel
  induction fuel with
  | zero =>
    intro t i j h
    rw [descend_zero] at h
    cases hn : t.node i with
    | none => simp only [hn] at h; cases h
    | some n =>
      simp only [hn] at h
      by_cases hcond : n.children = [] ∨ (g.is_terminal n.state).isSome = true
      · rw [if_pos hcond] at h
        cases h
        exact ⟨n, hn⟩
      · rw [if_neg hcond] at h
        cases h
  | succ f ih =>
    intro t i j h
    rw [descend_succ] at h
    cases hn : t.node i with
    | none => simp only [hn] at h; cases h
    | some n =>
      simp only [hn] at h
      by_cases hcond : n.children = [] ∨ (g.is_terminal n.state).isSome = true
      · rw [if_pos hcond] at h
        cases h
        exact ⟨n, hn⟩
      · rw [if_neg hcond] at h
        cases hs : select m t i with
        | none => simp only [hs] at h; cases h
        | some c =>
          simp only [hs] at h
          exact ih t c j h

/-- The consequences of `expand` needed by the search-loop proofs. -/
theorem expand_spec {g : GameState S A} {t : Tree S A} {i : Nat} {n : Node S A}
    (hw : WFP t) (hn : t.node i = some n) :
    ∃ n2, (expand g t i).node i = some n2 ∧
      WFP (expand g t i) ∧
      (expand g t i).nodes.length = t.nodes.length + (g.get_actions n.state).length ∧
      n2.children.length = n.children.length + (g.get_actions n.state).length ∧
      n2.state = n.state ∧
      (∀ k, visitsD (expand g t i) k = visitsD t k ∧
        valueD (expand g t i) k = valueD t k) := by
  rw [expand_eq_fold hn]
  obtain ⟨n2, h1, h2, h3, h4, h5, h6, h7, h8, h9⟩ :=
    expandFold_spec i (g.get_next_state n.state) (g.get_actions n.state) t n hw hn
  exact ⟨n2, h1, h2, h3, h4, h6, h9⟩

/-! ### Specification of one search iteration -/

/-- One completed search iteration keeps the tree well-formed, increments
the root's visit count by exactly one, never removes nodes, and changes the
statistics of every node either not at all or by the joint update
(`visits + 1`, `value + r`) for the single reward `r` it backpropagates. -/
theorem searchIter_spec {m : FMath} {g : GameState S A} {fuel : Nat} {t t' : Tree S A}
    {rng rng' : List Nat} (hw : WFP t)
    (hrun : searchIter m g fuel t rng = some (t', rng')) :
    WFP t' ∧ visitsD t' 0 = visitsD t 0 + 1 ∧ t.nodes.length ≤ t'.nodes.length ∧
    (∃ r, ∀ j, (visitsD t' j = visitsD t j ∧ valueD t' j = valueD t j) ∨
      (visitsD t' j = visitsD t j + 1 ∧ valueD t' j = fadd (valueD t j) r)) := by
  unfold searchIter at hrun
  cases hleaf : descend m g fuel t 0 with
  | none => simp only [hleaf] at hrun; cases hrun
  | some leaf =>
    simp only [hleaf] at hrun
    cases hn : t.node leaf with
    | none => simp only [hn] at hrun; cases hrun
    | some n =>
      simp only [hn] at hrun
      have hleaflt : leaf < t.nodes.length := node_lt_length hn
      cases hterm : g.is_terminal n.state with
      | some v =>
        simp only [hterm] at hrun
        cases hbp : backpropagate t leaf v with
        | none => simp only [hbp] at hrun; cases hrun
        | some t2 =>
          simp only [hbp] at hrun
          cases hrun
          obtain ⟨t3, hrun3, hlen3, hskel3, hwf3, hzero3, hmem3, hnot3⟩ :=
            backpropagate_spec hw hleaflt v
          rw [hbp] at hrun3
          cases hrun3
          refine ⟨hwf3, (hmem3 0 hzero3).1, le_of_eq hlen3.symm, v, ?_⟩
          intro j
          by_cases hj : j ∈ chainGo t.nodes.length t leaf
          · exact Or.inr (hmem3 j hj)
          · left
            unfold visitsD valueD
            rw [hnot3 j hj]
            exact ⟨rfl, rfl⟩
      | none =>
        simp only [hterm] at hrun
        cases hsel : select m (expand g t leaf) leaf with
        | none => simp only [hsel] at hrun; cases hrun
        | some c =>
          simp only [hsel] at hrun
          cases hcn : (expand g t leaf).node c with
          | none => simp only [hcn] at hrun; cases hrun
          | some cn =>
            simp only [hcn] at hrun
            cases hsim : simulate g fuel cn.state rng with
            | none => simp only [hsim] at hrun; cases hrun
            | some vr =>
              simp only [hsim] at hrun
              obtain ⟨v, rng2⟩ := vr
              cases hbp : backpropagate (expand g t leaf) c v with
              | none => simp only [hbp] at hrun; cases hrun
              | some t2 =>
                simp only [hbp] at hrun
                cases hrun
                obtain ⟨n2, hn2, hwf1, hlen1, hch, hst, hvis⟩ := expand_spec hw hn
                obtain ⟨n3, hn3, hcmem⟩ := select_mem hsel
                rw [hn2] at hn3
                cases hn3
                have hc : c < (expand g t leaf).nodes.length :=
                  (hwf1.2.2.2.2 leaf n2 c hn2 hcmem).1
                obtain ⟨t3, hrun3, hlen3, hskel3, hwf3, hzero3, hmem3, hnot3⟩ :=
                  backpropagate_spec hwf1 hc v
                rw [hbp] at hrun3
                cases hrun3
                refine ⟨hwf3, ?_, ?_, v, ?_⟩
                · rw [(hmem3 0 hzero3).1, (hvis 0).1]
                · rw [hlen3, hlen1]
                  omega
                · intro j
                  by_cases hj : j ∈ chainGo (expand g t leaf).nodes.length (expand g t leaf) c
                  · right
                    obtain ⟨h1, h2⟩ := hmem3 j hj
                    rw [h1, h2, (hvis j).1, (hvis j).2]
                    exact ⟨rfl, rfl⟩
                  · left
                    have heq : t'.node j = (expand g t leaf).node j := hnot3 j hj
                    have h1 : visitsD t' j = visitsD (expand g t leaf) j := by
                      unfold visitsD
                      rw [heq]
                    have h2 : valueD t' j = valueD (expand g t leaf) j := by
                      unfold valueD
                      rw [heq]
                    rw [h1, h2, (hvis j).1, (hvis j).2]
                    exact ⟨rfl, rfl⟩

/-! ### The outer search loop -/

theorem search_zero (m : FMath) (g : GameState S A) (fuel : Nat)
    (t : Tree S A) (rng : List Nat) :
    search m g fuel 0 t rng = some (t, rng) := rfl

theorem search_succ (m : FMath) (g : GameState S A) (fuel k : Nat)
    (t : Tree S A) (rng : List Nat) :
    search m g fuel (k + 1) t rng =
      match searchIter m g fuel t rng with
      | none => none
      | some (t1, rng1) => search m g fuel k t1 rng1 := rfl

theorem new_node_zero (s : S) :
    (Tree.new s : Tree S A).node 0 = some (Node.mk0 s none) := rfl

theorem wfp_new (s : S) : WFP (Tree.new s : Tree S A) := by
  refine ⟨by simp [Tree.new], rfl, ?_, ?_, ?_⟩
  · intro i n p hn hp
    have hi := node_lt_length hn
    simp [Tree.new] at hi
    subst hi
    rw [new_node_zero] at hn
    cases hn
    cases hp
  · intro i n hn hp
    have hi := node_lt_length hn
    simp [Tree.new] at hi
    exact hi
  · intro i n c hn hc
    have hi := node_lt_length hn
    simp [Tree.new] at hi
    subst hi
    rw [new_node_zero] at hn
    cases hn
    cases hc

/-- Completed searches keep the tree well-formed, add exactly `k` visits at
the root, and never decrease any visit count. -/
theorem search_spec {m : FMath} {g : GameState S A} {fuel : Nat} :
    ∀ (k : Nat) (t : Tree S A) (rng : List Nat) (t' : Tree S A) (rng' : List Nat),
      WFP t → search m g fuel k t rng = some (t', rng') →
      WFP t' ∧ visitsD t' 0 = visitsD t 0 + k ∧
      (∀ j, visitsD t j ≤ visitsD t' j) := by
  intro k
  induction k with
  | zero =>
    intro t rng t' rng' hw hrun
    rw [search_zero] at hrun
    cases hrun
    exact ⟨hw, rfl, fun j => le_refl _⟩
  | succ k ih =>
    intro t rng t' rng' hw hrun
    rw [search_succ] at hrun
    cases hit : searchIter m g fuel t rng with
    | none => simp only [hit] at hrun; cases hrun
    | some tr =>
      obtain ⟨t1, rng1⟩ := tr
      simp only [hit] at hrun
      obtain ⟨hw1, hroot1, hlen1, r, hpair⟩ := searchIter_spec hw hit
      obtain ⟨hw2, hroot2, hmono2⟩ := ih t1 rng1 t' rng' hw1 hrun
      refine ⟨hw2, by rw [hroot2, hroot1]; omega, ?_⟩
      intro j
      have h1 : visitsD t j ≤ visitsD t1 j := by
        rcases hpair j with ⟨h, -⟩ | ⟨h, -⟩ <;> omega
      exact le_trans h1 (hmono2 j)

theorem descend_leaf {m : FMath} {g : GameState S A} {fuel : Nat}
    {t : Tree S A} {i : Nat} {n : Node S A} (hn : t.node i = some n)
    (hcond : n.children = [] ∨ (g.is_terminal n.state).isSome = true) :
    descend m g fuel t i = some i := by
  cases fuel with
  | zero =>
    rw [descend_zero]
    simp only [hn]
    rw [if_pos hcond]
  | succ f =>
    rw [descend_succ]
    simp only [hn]
    rw [if_pos hcond]

/-! ### Small computation lemmas -/

theorem mk0_state (s : S) (a : Option A) : (Node.mk0 s a : Node S A).state = s := rfl

theorem mk0_children (s : S) (a : Option A) : (Node.mk0 s a : Node S A).children = [] := rfl

theorem maxByLastM_nil {β : Type} [LinearOrder β] (key : Nat → Option β) :
    maxByLastM key [] = none := rfl

theorem chainGo_self_mem (fuel : Nat) (t : Tree S A) (i : Nat) :
    i ∈ chainGo fuel t i := by
  cases fuel with
  | zero =>
    unfold chainGo
    cases hp : parentOf t i <;> simp
  | succ f =>
    unfold chainGo
    cases hp : parentOf t i <;> simp

theorem pvGo_zero (t : Tree S A) (i : Nat) (acc : List A) :
    pvGo t 0 i acc =
      match pvChoose t i with
      | none => (some acc, t)
      | some c =>
        match (t.node c).bind (fun n => n.action) with
        | none => (none, t)
        | some _ => (none, t) := rfl

theorem pvGo_succ (t : Tree S A) (f : Nat) (i : Nat) (acc : List A) :
    pvGo t (f + 1) i acc =
      match pvChoose t i with
      | none => (some acc, t)
      | some c =>
        match (t.node c).bind (fun n => n.action) with
        | none => (none, t)
        | some a => pvGo t f c (acc ++ [a]) := rfl

theorem pvGo_snd (t : Tree S A) :
    ∀ (fuel i : Nat) (acc : List A), (pvGo t fuel i acc).2 = t := by
  intro fuel
  induction fuel with
  | zero =>
    intro i acc
    rw [pvGo_zero]
    cases hc : pvChoose t i with
    | none => rfl
    | some c =>
      dsimp only
      cases ha : (t.node c).bind (fun n => n.action) with
      | none => rfl
      | some a => rfl
  | succ f ih =>
    intro i acc
    rw [pvGo_succ]
    cases hc : pvChoose t i with
    | none => rfl
    | some c =>
      dsimp only
      cases ha : (t.node c).bind (fun n => n.action) with
      | none => rfl
      | some a => exact ih c (acc ++ [a])

/-! ## The claims -/

/-- C8: `get_principal_variation` performs no mutation.  The method takes
the engine by shared reference; embedded state-passing, the tree every step
of its loop returns is exactly the tree it received, so every node's
`visits`, `value`, `state`, `action`, `parent` and `children` are left
exactly as they were before the call. -/
theorem c8_pv_no_mutation (t : Tree S A) :
    (get_principal_variation t).2 = t ∧
    (∀ (fuel i : Nat) (acc : List A), (pvGo t fuel i acc).2 = t) ∧
    (∀ j, ((get_principal_variation t).2.node j = t.node j)) := by
  refine ⟨pvGo_snd t t.nodes.length 0 [], pvGo_snd t, ?_⟩
  intro j
  rw [show (get_principal_variation t).2 = t from pvGo_snd t t.nodes.length 0 []]

/-- C9: `search(0)` returns the tree unchanged, so on a fresh engine the
tree is still just the root with `visits = 0` and no children, and
`get_principal_variation` on such an engine returns the empty sequence. -/
theorem c9_search_zero_and_empty_pv (m : FMath) (g : GameState S A) (fuel : Nat)
    (s : S) (rng : List Nat) :
    search m g fuel 0 (Tree.new s) rng = some (Tree.new s, rng) ∧
    (Tree.new s : Tree S A).nodes = [Node.mk0 s none] ∧
    visitsD (Tree.new s : Tree S A) 0 = 0 ∧
    (Tree.new s : Tree S A).node 0 = some (Node.mk0 s none) ∧
    (Node.mk0 s (none : Option A)).children = [] ∧
    (get_principal_variation (Tree.new s : Tree S A)).1 = some [] :=
  ⟨search_zero m g fuel (Tree.new s) rng, rfl, rfl, rfl, rfl, rfl⟩

/-- C10: when the descent reaches a leaf whose state is non-terminal but
whose `get_actions()` is empty, `expand` creates no children, the
immediately following `select` panics (`max_by_key` over an empty children
list yields `None` and is unwrapped), and the search iteration aborts with
no graceful handling. -/
theorem c10_empty_actions_panics {m : FMath} {g : GameState S A} {fuel k : Nat}
    {t : Tree S A} {leaf : Nat} {n : Node S A} {rng : List Nat}
    (hdesc : descend m g fuel t 0 = some leaf)
    (hn : t.node leaf = some n)
    (hterm : g.is_terminal n.state = none)
    (hact : g.get_actions n.state = [])
    (hch : n.children = []) :
    expand g t leaf = t ∧
    select m (expand g t leaf) leaf = none ∧
    searchIter m g fuel t rng = none ∧
    search m g fuel (k + 1) t rng = none := by
  have hexp : expand g t leaf = t := by
    unfold expand
    simp only [hn, hact, List.foldl_nil]
  have hsel : select m (expand g t leaf) leaf = none := by
    rw [hexp]
    unfold select
    simp only [hn, hch, maxByLastM_nil]
  have hiter : searchIter m g fuel t rng = none := by
    unfold searchIter
    simp only [hdesc, hn, hterm, hsel]
  refine ⟨hexp, hsel, hiter, ?_⟩
  rw [search_succ]
  simp only [hiter]

/-- C10 witness: the contract-violating model `gBad` (non-terminal, no
actions) makes `expand` a no-op, `select` a panic, and the first search
iteration abort, starting from a fresh engine. -/
theorem c10_empty_actions_panics_witness :
    expand gBad (Tree.new ()) 0 = Tree.new () ∧
    select fmathExact (expand gBad (Tree.new ()) 0) 0 = none ∧
    searchIter fmathExact gBad 5 (Tree.new ()) [0, 1, 2] = none ∧
    search fmathExact gBad 5 1 (Tree.new ()) [0, 1, 2] = none :=
  @c10_empty_actions_panics Unit Unit fmathExact gBad 5 0 (Tree.new ()) 0
    (Node.mk0 () none) [0, 1, 2] (by decide) (by decide) (by decide) (by decide) (by decide)

/-- C1: the code does not give zero-visit children unconditional maximal
priority.  In `tZeroVisit` the parent has one visit; child 2 is unvisited,
so its UCB1 score is `0.0/0.0 + sqrt(0/0) = NaN`, which Rust's saturating
`as i32` cast turns into key `0`; child 1 (one visit, value `2.0`) gets key
`2`.  `select` therefore returns the already-visited child 1, not the
zero-visit child 2. -/
theorem c1_zero_visit_not_prioritized :
    tZeroVisit.node 0 =
      some { parent := none, children := [1, 2],
             stats := { visits := 1, value := F.fin ⟨0, 1⟩ }, state := (), action := none } ∧
    visitsD tZeroVisit 1 = 1 ∧ visitsD tZeroVisit 2 = 0 ∧
    ucb1 fmathExact tZeroVisit 2 = some F.nan ∧
    selKey fmathExact tZeroVisit 2 = some 0 ∧
    selKey fmathExact tZeroVisit 1 = some 2 ∧
    select fmathExact tZeroVisit 0 = some 1 ∧
    select fmathExact tZeroVisit 0 ≠ some 2 := by
  refine ⟨rfl, rfl, rfl, by decide, by decide, by decide, by decide, by decide⟩

/-- C2: selection compares `ucb1(child) as i32`, not full-precision scores.
In `tTrunc` (parent visited once, both children visited once) the exact
UCB1 scores are `1.5` and `1.25` — the full-precision maximum is child 1 —
but both truncate to integer key `1`, and `max_by_key` then returns the
last of the tied children: `select` picks child 2. -/
theorem c2_truncated_comparison :
    ucb1 fmathExact tTrunc 1 = some (F.fin ⟨3, 2⟩) ∧
    ucb1 fmathExact tTrunc 2 = some (F.fin ⟨5, 4⟩) ∧
    Frac.val ⟨5, 4⟩ < Frac.val ⟨3, 2⟩ ∧
    selKey fmathExact tTrunc 1 = some 1 ∧
    selKey fmathExact tTrunc 2 = some 1 ∧
    select fmathExact tTrunc 0 = some 2 ∧
    select fmathExact tTrunc 0 ≠ some 1 := by
  refine ⟨by decide, by decide, ?_, by decide, by decide, by decide, by decide⟩
  unfold Frac.val
  norm_num

/-- C3 counterexample: ties are NOT broken in favour of the first maximal
child.  In `tTie` both children have equal truncated selection keys and
equal visit counts; the first maximal child is 1, yet both `select` and
the principal-variation step return child 2 (Rust's `max_by_key` returns
the last of equal maxima). -/
theorem c3_ties_last_not_first :
    tTie.node 0 =
      some { parent := none, children := [1, 2],
             stats := { visits := 1, value := F.fin ⟨0, 1⟩ }, state := (), action := none } ∧
    selKey fmathExact tTie 1 = selKey fmathExact tTie 2 ∧
    visKey tTie 1 = visKey tTie 2 ∧
    select fmathExact tTie 0 = some 2 ∧
    select fmathExact tTie 0 ≠ some 1 ∧
    pvChoose tTie 0 = some 2 ∧
    pvChoose tTie 0 ≠ some 1 := by
  refine ⟨rfl, by decide, by decide, by decide, by decide, by decide, by decide⟩

/-- C3 amended: when several children tie for the maximal score, the LAST
maximal child in encounter (insertion) order wins: `select` returns the
last child attaining the maximal truncated UCB1 key (everything before it
has key at most the winner's, everything after it strictly smaller), and
the principal-variation step descends to the last child attaining the
maximal visit count. -/
theorem c3_last_maximal_wins {m : FMath} {t : Tree S A} {i c c2 : Nat} :
    (select m t i = some c →
      ∃ n kc l1 l2, t.node i = some n ∧ selKey m t c = some kc ∧
        n.children = l1 ++ c :: l2 ∧
        (∀ x ∈ l1, ∃ kx, selKey m t x = some kx ∧ kx ≤ kc) ∧
        (∀ x ∈ l2, ∃ kx, selKey m t x = some kx ∧ kx < kc)) ∧
    (pvChoose t i = some c2 →
      ∃ n kc l1 l2, t.node i = some n ∧ visKey t c2 = some kc ∧
        n.children = l1 ++ c2 :: l2 ∧
        (∀ x ∈ l1, ∃ kx, visKey t x = some kx ∧ kx ≤ kc) ∧
        (∀ x ∈ l2, ∃ kx, visKey t x = some kx ∧ kx < kc)) := by
  constructor
  · intro h
    unfold select at h
    cases hn : t.node i with
    | none => simp only [hn] at h; cases h
    | some n =>
      simp only [hn] at h
      obtain ⟨kc, l1, l2, h1, h2, h3, h4⟩ := maxByLastM_last _ h
      exact ⟨n, kc, l1, l2, rfl, h1, h2, h3, h4⟩
  · intro h
    unfold pvChoose at h
    cases hn : t.node i with
    | none => simp only [hn] at h; cases h
    | some n =>
      simp only [hn] at h
      obtain ⟨kc, l1, l2, h1, h2, h3, h4⟩ := maxByLastM_last _ h
      exact ⟨n, kc, l1, l2, rfl, h1, h2, h3, h4⟩

/-- C3 amended witness at the concrete tie `tTie`: both selection and the
principal-variation step return child 2, the last of the two tied
children. -/
theorem c3_last_maximal_wins_witness :
    (select fmathExact tTie 0 = some 2 ∧ pvChoose tTie 0 = some 2) ∧
    (∃ n kc l1 l2, tTie.node 0 = some n ∧ selKey fmathExact tTie 2 = some kc ∧
      n.children = l1 ++ 2 :: l2 ∧
      (∀ x ∈ l1, ∃ kx, selKey fmathExact tTie x = some kx ∧ kx ≤ kc) ∧
      (∀ x ∈ l2, ∃ kx, selKey fmathExact tTie x = some kx ∧ kx < kc)) ∧
    (∃ n kc l1 l2, tTie.node 0 = some n ∧ visKey tTie 2 = some kc ∧
      n.children = l1 ++ 2 :: l2 ∧
      (∀ x ∈ l1, ∃ kx, visKey tTie x = some kx ∧ kx ≤ kc) ∧
      (∀ x ∈ l2, ∃ kx, visKey tTie x = some kx ∧ kx < kc)) :=
  ⟨⟨by decide, by decide⟩,
    (@c3_last_maximal_wins Unit Unit fmathExact tTie 0 2 2).1 (by decide),
    (@c3_last_maximal_wins Unit Unit fmathExact tTie 0 2 2).2 (by decide)⟩

/-- C4: after `search(k)` completes on a freshly constructed engine, the
root has been visited exactly `k` times: each completed iteration performs
exactly one backpropagation whose path contains the root exactly once. -/
theorem c4_root_visits_eq_iterations {m : FMath} {g : GameState S A}
    {fuel k : Nat} {s : S} {rng rng' : List Nat} {t' : Tree S A}
    (hrun : search m g fuel k (Tree.new s) rng = some (t', rng')) :
    visitsD t' 0 = k := by
  obtain ⟨-, h, -⟩ := search_spec k (Tree.new s) rng t' rng' (wfp_new s) hrun
  have h0 : visitsD (Tree.new s : Tree S A) 0 = 0 := rfl
  omega

/-- C4 witness: two iterations on the always-terminal game leave the fresh
root with exactly two visits. -/
theorem c4_root_visits_eq_iterations_witness :
    search fmathExact gTerm 1 2 (Tree.new 0) [] = some (tTermTwo, []) ∧
    visitsD tTermTwo 0 = 2 :=
  ⟨by decide, @c4_root_visits_eq_iterations Nat Nat fmathExact gTerm 1 2 0 [] []
    tTermTwo (by decide)⟩

/-- C5: `backpropagate` walks the parent chain from the given node up to
and including the root (both endpoints are on the chain), increments
`visits` by exactly 1 and adds the reward to `value` at every node on that
chain, leaves every node off the chain completely unchanged, and changes no
node's `parent`, `children`, `state` or `action`. -/
theorem c5_backpropagate_updates_path {t : Tree S A} (hw : WF t) {i : Nat}
    (hi : i < t.nodes.length) (v : F) :
    ∃ t', backpropagate t i v = some t' ∧
      i ∈ chainGo t.nodes.length t i ∧
      0 ∈ chainGo t.nodes.length t i ∧
      (∀ j, j ∈ chainGo t.nodes.length t i →
        visitsD t' j = visitsD t j + 1 ∧ valueD t' j = fadd (valueD t j) v) ∧
      (∀ j, j ∉ chainGo t.nodes.length t i → t'.node j = t.node j) ∧
      (∀ j, ((t'.node j).map skel) = ((t.node j).map skel)) := by
  obtain ⟨t', h1, h2, h3, h4, h5, h6, h7⟩ := backpropagate_spec (wf_iff.mp hw) hi v
  exact ⟨t', h1, chainGo_self_mem _ t i, h5, h6, h7, h3⟩

/-- C5 witness at the concrete tree `tTie`, backpropagating reward `1.0`
from child 1. -/
theorem c5_backpropagate_updates_path_witness :
    WF tTie ∧ 1 < tTie.nodes.length ∧
    (∃ t', backpropagate tTie 1 (F.fin ⟨1, 1⟩) = some t' ∧
      1 ∈ chainGo tTie.nodes.length tTie 1 ∧
      0 ∈ chainGo tTie.nodes.length tTie 1 ∧
      (∀ j, j ∈ chainGo tTie.nodes.length tTie 1 →
        visitsD t' j = visitsD tTie j + 1 ∧
        valueD t' j = fadd (valueD tTie j) (F.fin ⟨1, 1⟩)) ∧
      (∀ j, j ∉ chainGo tTie.nodes.length tTie 1 → t'.node j = tTie.node j) ∧
      (∀ j, ((t'.node j).map skel) = ((tTie.node j).map skel))) :=
  ⟨by decide, by decide,
    @c5_backpropagate_updates_path Unit Unit tTie (by decide) 1 (by decide) (F.fin ⟨1, 1⟩)⟩

/-- C6: `search(1)` from a non-terminal initial state leaves the root with
exactly one child per action of the initial state and `root.visits = 1`. -/
theorem c6_search_one_expands_root {m : FMath} {g : GameState S A} {fuel : Nat}
    {s : S} {rng rng' : List Nat} {t' : Tree S A}
    (hterm : g.is_terminal s = none)
    (hrun : search m g fuel 1 (Tree.new s) rng = some (t', rng')) :
    (∃ n, t'.node 0 = some n ∧ n.children.length = (g.get_actions s).length) ∧
    visitsD t' 0 = 1 := by
  rw [search_succ] at hrun
  cases hit : searchIter m g fuel (Tree.new s) rng with
  | none => simp only [hit] at hrun; cases hrun
  | some tr =>
    obtain ⟨t1, rng1⟩ := tr
    simp only [hit] at hrun
    rw [search_zero] at hrun
    cases hrun
    unfold searchIter at hit
    rw [descend_leaf (new_node_zero s) (Or.inl (mk0_children s none))] at hit
    simp only [new_node_zero, mk0_state, hterm] at hit
    cases hsel : select m (expand g (Tree.new s) 0) 0 with
    | none => simp only [hsel] at hit; cases hit
    | some c =>
      simp only [hsel] at hit
      cases hcn : (expand g (Tree.new s) 0).node c with
      | none => simp only [hcn] at hit; cases hit
      | some cn =>
        simp only [hcn] at hit
        cases hsim : simulate g fuel cn.state rng with
        | none => simp only [hsim] at hit; cases hit
        | some vr =>
          simp only [hsim] at hit
          obtain ⟨v, rng2⟩ := vr
          cases hbp : backpropagate (expand g (Tree.new s) 0) c v with
          | none => simp only [hbp] at hit; cases hit
          | some t2 =>
            simp only [hbp] at hit
            cases hit
            obtain ⟨n2, hn2, hwf1, hlen1, hch, hst, hvis⟩ :=
              expand_spec (wfp_new s) (new_node_zero s)
            obtain ⟨n3, hn3, hcmem⟩ := select_mem hsel
            rw [hn2] at hn3
            cases hn3
            have hc : c < (expand g (Tree.new s) 0).nodes.length :=
              (hwf1.2.2.2.2 0 n2 c hn2 hcmem).1
            obtain ⟨t3, hrun3, hlen3, hskel3, hwf3, hzero3, hmem3, hnot3⟩ :=
              backpropagate_spec hwf1 hc v
            rw [hbp] at hrun3
            cases hrun3
            simp only [mk0_children, mk0_state, List.length_nil] at hch
            constructor
            · cases h0 : t'.node 0 with
              | none =>
                have hcontra := hskel3 0
                rw [h0, hn2] at hcontra
                simp at hcontra
              | some n4 =>
                obtain ⟨n5, hn5, hpar5, hch5, hst5, hac5⟩ := node_of_skel hskel3 h0
                rw [hn2] at hn5
                cases hn5
                refine ⟨n4, rfl, ?_⟩
                rw [← hch5, hch]
                omega
            · rw [(hmem3 0 hzero3).1, (hvis 0).1]
              have h00 : visitsD (Tree.new s : Tree S A) 0 = 0 := rfl
              omega

/-- C6 witness: `search(1)` on the counting game from pile `2` leaves the
root with one child (one legal action) and one visit. -/
theorem c6_search_one_expands_root_witness :
    gNim.is_terminal 2 = none ∧
    search fmathExact gNim 3 1 (Tree.new 2) [0] = some (tNimOne, []) ∧
    ((∃ n, tNimOne.node 0 = some n ∧
        n.children.length = (gNim.get_actions 2).length) ∧
      visitsD tNimOne 0 = 1) :=
  ⟨by decide, by decide, @c6_search_one_expands_root Nat Nat fmathExact gNim 3 2 [0] []
    tNimOne (by decide) (by decide)⟩

/-- C7: in every completed search iteration each node's statistics are
either untouched or receive the joint update (`visits + 1`,
`value + r`) for that iteration's single backpropagated reward `r` —
`visits` and `value` are never updated apart — and across any sequence of
completed iterations every node's visit count is monotonically
non-decreasing. -/
theorem c7_visits_value_updated_together {m : FMath} {g : GameState S A}
    {fuel : Nat} {t : Tree S A} (hw : WF t) :
    (∀ t' rng rng', searchIter m g fuel t rng = some (t', rng') →
      ∃ r, ∀ j, (visitsD t' j = visitsD t j ∧ valueD t' j = valueD t j) ∨
        (visitsD t' j = visitsD t j + 1 ∧ valueD t' j = fadd (valueD t j) r)) ∧
    (∀ k t' rng rng', search m g fuel k t rng = some (t', rng') →
      ∀ j, visitsD t j ≤ visitsD t' j) := by
  constructor
  · intro t' rng rng' h
    exact (searchIter_spec (wf_iff.mp hw) h).2.2.2
  · intro k t' rng rng' h
    exact (search_spec k t rng t' rng' (wf_iff.mp hw) h).2.2

/-- C7 witness: one iteration on the always-terminal game from a fresh
root; the root receives the joint update, every other index is untouched. -/
theorem c7_visits_value_updated_together_witness :
    WF (Tree.new 0 : Tree Nat Nat) ∧
    searchIter fmathExact gTerm 1 (Tree.new 0) [] = some (tTermOne, []) ∧
    (∃ r, ∀ j, (visitsD tTermOne j = visitsD (Tree.new 0 : Tree Nat Nat) j ∧
        valueD tTermOne j = valueD (Tree.new 0 : Tree Nat Nat) j) ∨
      (visitsD tTermOne j = visitsD (Tree.new 0 : Tree Nat Nat) j + 1 ∧
        valueD tTermOne j = fadd (valueD (Tree.new 0 : Tree Nat Nat) j) r)) :=
  ⟨by decide, by decide,
    (@c7_visits_value_updated_together Nat Nat fmathExact gTerm 1 (Tree.new 0)
      (by decide)).1 tTermOne [] [] (by decide)⟩

end Mcts
